import Mathlib

/-!
Verification development for the CoolCode editor (src/main.py).

The file shallowly embeds the program's core logic:
`PythonSyntaxHighlighter` (rule set and `highlightBlock` scanning loop),
`LineNumberArea.paintEvent`, `CodeEditor.update_line_number_area` and
`CodeEditor.handle_update_request`, `MainWindow.run_code`,
`MainWindow.open_file` and `MainWindow.save_file`.

Text is modelled as `List Char` (one block / line of the document) or as
`List Nat` (Unicode codepoints of a Python `str`, or bytes of a file).
-/

/-! ## Characters and basic scanning helpers -/

/-- Color constants of `PythonSyntaxHighlighter.__init__`:
QColor("blue"), QColor("green"), QColor("red"), QColor("orange"), QColor("cyan"). -/
inductive HColor where
  | blue
  | green
  | red
  | orange
  | cyan
deriving DecidableEq

/-- The character `'` (single quote), written via its code point. -/
def squoteChar : Char := Char.ofNat 39

/-- The character `"` (double quote). -/
def dquoteChar : Char := Char.ofNat 34

/-- The character `#`. -/
def hashChar : Char := Char.ofNat 35

/-- The character `.` (full stop). -/
def dotChar : Char := Char.ofNat 46

/-- The character `_` (underscore). -/
def underscoreChar : Char := Char.ofNat 95

/-- Word character in the sense of QRegExp's `\w` (letters, digits, underscore;
restricted to the ASCII range used by the program's inputs). -/
def isWordChar (c : Char) : Bool := c.isAlphanum || c == underscoreChar

/-- Whether position `i` of line `t` holds a word character
(positions outside the line count as non-word). -/
def wordAt (t : List Char) (i : Nat) : Bool :=
  match t.get? i with
  | some c => isWordChar c
  | none => false

/-- QRegExp `\b`: a word boundary sits at position `i` when the character
before `i` and the character at `i` disagree on word-ness. -/
def boundaryAt (t : List Char) (i : Nat) : Bool :=
  (match i with
   | 0 => false
   | j + 1 => wordAt t j) != wordAt t i

/-- Length of the maximal prefix of a list satisfying `p`
(greedy `\d*`, `\s*`, `\w*` repetition counts). -/
def countWhile (p : Char → Bool) : List Char → Nat
  | [] => 0
  | c :: rest => if p c then countWhile p rest + 1 else 0

/-- Index of the first occurrence of character `c`, if any. -/
def nextIndexOf (c : Char) : List Char → Option Nat
  | [] => none
  | a :: rest => if a == c then some 0 else (nextIndexOf c rest).map (· + 1)

/-! ## The matchers of the five `create_rule` calls

Each matcher returns the length of the (leftmost-greedy, QRegExp-semantics)
match of its pattern starting exactly at position `i` of line `t`,
or `none` when the pattern does not match at `i`. -/

/-- Matcher of a plain keyword pattern such as `def` or `while`: the patterns
registered for the keyword list contain no regex metacharacters and no word
boundaries, so they match as literal substrings anywhere in the line. -/
def literalMatchAt (kw : List Char) (t : List Char) (i : Nat) : Option Nat :=
  if (t.drop i).take kw.length = kw then some kw.length else none

/-- Matcher of the comment pattern from the source: a `#` followed greedily by
any characters to the end of the line (`.` does not cross the line, and
`highlightBlock` receives one line at a time). -/
def commentMatchAt (t : List Char) (i : Nat) : Option Nat :=
  if t.get? i = some hashChar then some (t.length - i) else none

/-- Matcher of the two string patterns: a quote, then greedily all characters
other than the quote, then the closing quote.  It matches at `i` exactly when
`t` holds the quote at `i` and again somewhere after `i`; the match runs to
the first such closing quote. -/
def quoteStringMatchAt (q : Char) (t : List Char) (i : Nat) : Option Nat :=
  if t.get? i = some q then
    (nextIndexOf q (t.drop (i + 1))).map (fun j => j + 2)
  else none

/-- Greedy-with-backtracking search for the fractional part of the number
pattern: the largest `e2 ≤ e` such that a word boundary sits at
`base + e2`, trying `e` digits first, then fewer. -/
def bestOptExt (t : List Char) (base : Nat) : Nat → Option Nat
  | 0 => if boundaryAt t base then some 0 else none
  | e + 1 => if boundaryAt t (base + e + 1) then some (e + 1) else bestOptExt t base e

/-- Matcher of the number pattern (word boundary, one or more digits,
an optional dot with further digits, word boundary), with QRegExp's greedy
matching and backtracking over the optional fractional part. -/
def numberMatchAt (t : List Char) (i : Nat) : Option Nat :=
  let d := countWhile Char.isDigit (t.drop i)
  if boundaryAt t i = true ∧ 1 ≤ d then
    if t.get? (i + d) = some dotChar then
      match bestOptExt t (i + d + 1) (countWhile Char.isDigit (t.drop (i + d + 1))) with
      | some e2 => some (d + 1 + e2)
      | none => if boundaryAt t (i + d) = true then some d else none
    else
      if boundaryAt t (i + d) = true then some d else none
  else none

/-- Matcher of the def/class-name patterns: a word boundary, the literal
keyword, one or more whitespace characters, then one or more word characters,
all greedy. -/
def kwNameMatchAt (kw : List Char) (t : List Char) (i : Nat) : Option Nat :=
  if boundaryAt t i = true ∧ (t.drop i).take kw.length = kw then
    let s := countWhile Char.isWhitespace (t.drop (i + kw.length))
    let w := countWhile isWordChar (t.drop (i + kw.length + s))
    if 1 ≤ s ∧ 1 ≤ w then some (kw.length + s + w) else none
  else none

/-! ## The rule table -/

/-- One entry of `self.highlighting_rules`: a compiled pattern (modelled by its
matcher function) and the text format's foreground color. -/
structure HighlightRule where
  matchAt : List Char → Nat → Option Nat
  color : HColor

/-- Characters of a string literal. -/
def strL (s : String) : List Char := s.data

/-- The keyword list passed to the first `create_rule` call. -/
def pythonKeywords : List String :=
  ["def", "class", "import", "from", "as", "return", "if", "elif", "else",
   "while", "for", "break", "continue", "try", "except", "finally",
   "raise", "with", "lambda", "yield"]

/-- The full rule table in registration order, exactly as built by the five
`create_rule` calls of `PythonSyntaxHighlighter.__init__`: the twenty keyword
rules (blue), the comment rule (green), the double- and single-quoted string
rules (red), the number rule (orange), and the def/class-name rules (cyan). -/
def highlighting_rules : List HighlightRule :=
  [⟨literalMatchAt (strL "def"), HColor.blue⟩,
   ⟨literalMatchAt (strL "class"), HColor.blue⟩,
   ⟨literalMatchAt (strL "import"), HColor.blue⟩,
   ⟨literalMatchAt (strL "from"), HColor.blue⟩,
   ⟨literalMatchAt (strL "as"), HColor.blue⟩,
   ⟨literalMatchAt (strL "return"), HColor.blue⟩,
   ⟨literalMatchAt (strL "if"), HColor.blue⟩,
   ⟨literalMatchAt (strL "elif"), HColor.blue⟩,
   ⟨literalMatchAt (strL "else"), HColor.blue⟩,
   ⟨literalMatchAt (strL "while"), HColor.blue⟩,
   ⟨literalMatchAt (strL "for"), HColor.blue⟩,
   ⟨literalMatchAt (strL "break"), HColor.blue⟩,
   ⟨literalMatchAt (strL "continue"), HColor.blue⟩,
   ⟨literalMatchAt (strL "try"), HColor.blue⟩,
   ⟨literalMatchAt (strL "except"), HColor.blue⟩,
   ⟨literalMatchAt (strL "finally"), HColor.blue⟩,
   ⟨literalMatchAt (strL "raise"), HColor.blue⟩,
   ⟨literalMatchAt (strL "with"), HColor.blue⟩,
   ⟨literalMatchAt (strL "lambda"), HColor.blue⟩,
   ⟨literalMatchAt (strL "yield"), HColor.blue⟩,
   ⟨commentMatchAt, HColor.green⟩,
   ⟨quoteStringMatchAt dquoteChar, HColor.red⟩,
   ⟨quoteStringMatchAt squoteChar, HColor.red⟩,
   ⟨numberMatchAt, HColor.orange⟩,
   ⟨kwNameMatchAt (strL "def"), HColor.cyan⟩,
   ⟨kwNameMatchAt (strL "class"), HColor.cyan⟩]

/-! ## The scanning loop of `highlightBlock`

QRegExp's `indexIn(text, start)` returns the leftmost match at or after
`start`; `highlightBlock` repeatedly re-searches from just past each match. -/

/-- Search for the first position `≥ i` where `m` matches, trying at most
`fuel` positions (modelling `expression.indexIn(text, i)`). -/
def findFromAux (m : List Char → Nat → Option Nat) (t : List Char) :
    Nat → Nat → Option (Nat × Nat)
  | 0, _ => none
  | fuel + 1, i =>
    match m t i with
    | some len => some (i, len)
    | none => findFromAux m t fuel (i + 1)

/-- Leftmost match of `m` in `t` at or after `s` as a pair (index, length). -/
def findFrom (m : List Char → Nat → Option Nat) (t : List Char) (s : Nat) :
    Option (Nat × Nat) :=
  findFromAux m t (t.length + 1 - s) s

/-- The `while index >= 0` loop of `highlightBlock` for one rule: collect
matches left to right, restarting each search at `index + length`. -/
def scanAux (m : List Char → Nat → Option Nat) (t : List Char) :
    Nat → Nat → List (Nat × Nat)
  | 0, _ => []
  | fuel + 1, s =>
    match findFrom m t s with
    | none => []
    | some (i, len) => (i, len) :: scanAux m t fuel (i + len)

/-- All spans one rule produces on line `t`, in the order `highlightBlock`
emits them. -/
def scan (m : List Char → Nat → Option Nat) (t : List Char) : List (Nat × Nat) :=
  scanAux m t (t.length + 1) 0

/-- Helper of `setFormat`: walk the format array carrying the current
absolute position, repainting the positions in `[s, e)`. -/
def setFormatAux (c : HColor) (s e : Nat) : Nat → List (Option HColor) → List (Option HColor)
  | _, [] => []
  | i, v :: rest => (if s ≤ i ∧ i < e then some c else v) :: setFormatAux c s e (i + 1) rest

/-- The effect of `self.setFormat(s, len, format)` on the per-character format
array of the current block. -/
def setFormat (s len : Nat) (c : HColor) (fmt : List (Option HColor)) : List (Option HColor) :=
  setFormatAux c s (s + len) 0 fmt

/-- Apply one rule's spans in order via `setFormat`. -/
def applySpans (c : HColor) (spans : List (Nat × Nat)) (fmt : List (Option HColor)) :
    List (Option HColor) :=
  spans.foldl (fun f sp => setFormat sp.1 sp.2 c f) fmt

/-- One iteration of the `for pattern, format in self.highlighting_rules` loop. -/
def applyRule (r : HighlightRule) (t : List Char) (fmt : List (Option HColor)) :
    List (Option HColor) :=
  applySpans r.color (scan r.matchAt t) fmt

/-- The final per-character formats `highlightBlock` leaves on line `t`
(Qt resets the block's formats before each call, hence the `none` start). -/
def highlightBlock (t : List Char) : List (Option HColor) :=
  highlighting_rules.foldl (fun fmt r => applyRule r t fmt) (List.replicate t.length none)

/-- Whether any span of the list covers character position `p`. -/
def coversPos (spans : List (Nat × Nat)) (p : Nat) : Bool :=
  spans.any (fun sp => decide (sp.1 ≤ p ∧ p < sp.1 + sp.2))

/-- The color of the last rule in registration order whose scan covers `p`. -/
def lastCoveringColor (t : List Char) (p : Nat) : Option HColor :=
  highlighting_rules.foldl
    (fun acc r => if coversPos (scan r.matchAt t) p then some r.color else acc) none

/-- Spans produced by a list of rules on line `t`, each tagged with its
rule's color, in the order the rules paint them. -/
def spansOfRules (rs : List HighlightRule) (t : List Char) : List (Nat × Nat × HColor) :=
  rs.foldr (fun r acc => (scan r.matchAt t).map (fun sp => (sp.1, sp.2, r.color)) ++ acc) []

/-- The chronological list of (offset, length, color) spans `highlightBlock`
produces on line `t`, over all rules in registration order. -/
def spansProduced (t : List Char) : List (Nat × Nat × HColor) :=
  spansOfRules highlighting_rules t

/-- Modelled from the claim's words (not from the source): a span covers a
whole token when no word character directly precedes or follows it. -/
def specWholeTokenSpan (t : List Char) (sp : Nat × Nat) : Prop :=
  (sp.1 = 0 ∨ wordAt t (sp.1 - 1) = false) ∧ wordAt t (sp.1 + sp.2) = false

/-- Two spans are disjoint when one ends at or before the other starts. -/
def spansDisjoint (a b : Nat × Nat) : Prop := a.1 + a.2 ≤ b.1 ∨ b.1 + b.2 ≤ a.1

/-! ## Gutter: `LineNumberArea.paintEvent` and the editor's update slots -/

/-- An axis-aligned rectangle with integer coordinates (QRect / QRectF;
the program only ever compares and forwards whole-number geometry). -/
structure QtRect where
  x : Int
  y : Int
  w : Int
  h : Int
deriving DecidableEq

/-- Qt's `intersects`: true when the two rectangles share interior area. -/
def QtRect.intersects (a b : QtRect) : Bool :=
  decide (a.x < b.x + b.w ∧ b.x < a.x + a.w ∧ a.y < b.y + b.h ∧ b.y < a.y + a.h)

/-- The `while block.isValid()` loop of `LineNumberArea.paintEvent`: for each
remaining block (rectangle already translated by the content offset), skip it
unless it intersects the event rectangle, else draw `blockNumber + 1`.
Entries are (block number, integer drawn). -/
def lineNumberPaintGo (ev : QtRect) : List QtRect → Nat → List (Nat × Nat)
  | [], _ => []
  | r :: rest, i =>
    if r.intersects ev then (i, i + 1) :: lineNumberPaintGo ev rest (i + 1)
    else lineNumberPaintGo ev rest (i + 1)

/-- `LineNumberArea.paintEvent`: start at the editor's first visible block and
walk forward, drawing successive block numbers; no stored line count. -/
def lineNumberPaintEvent (blocks : List QtRect) (firstVisible : Nat) (ev : QtRect) :
    List (Nat × Nat) :=
  lineNumberPaintGo ev (blocks.drop firstVisible) firstVisible

/-- The runtime value bound to the `rect` parameter of the editor's update
slots: a QRect, a QRectF, or the `int` block count that PyQt passes when the
`blockCountChanged(int)` signal fires. -/
inductive RectPayload where
  | qrect (r : QtRect)
  | qrectF (r : QtRect)
  | intPayload (n : Nat)
deriving DecidableEq

/-- What `update_line_number_area` does to the gutter widget. -/
inductive GutterAction where
  | setGeometryUpdate (g : QtRect)
  | updateRegion (x y w h : Int)
  | noop
deriving DecidableEq

/-- The gutter's fixed width (`self.setFixedWidth(40)`). -/
def lineNumberAreaWidth : Int := 40

/-- `CodeEditor.update_line_number_area(rect=None)`: with no argument it
resizes the gutter to the contents rectangle and repaints it fully; with a
QRect/QRectF it repaints the band `(0, rect.y, width, rect.height)`; with any
other value (`isinstance` checks both fail) it returns without doing
anything. -/
def update_line_number_area (contents : QtRect) (arg : Option RectPayload) : GutterAction :=
  match arg with
  | none => GutterAction.setGeometryUpdate ⟨contents.x, contents.y, lineNumberAreaWidth, contents.h⟩
  | some (RectPayload.qrect r) => GutterAction.updateRegion 0 r.y lineNumberAreaWidth r.h
  | some (RectPayload.qrectF r) => GutterAction.updateRegion 0 r.y lineNumberAreaWidth r.h
  | some (RectPayload.intPayload _) => GutterAction.noop

/-- Result of one dispatch of `CodeEditor.handle_update_request`. -/
inductive HandlerStep where
  | acted (a : GutterAction)
  | loggedUnexpected
deriving DecidableEq

/-- `CodeEditor.handle_update_request(rect)`: forward QRect/QRectF payloads to
`update_line_number_area`, print a diagnostic (and do nothing else) on any
other payload shape. -/
def handle_update_request (contents : QtRect) (p : RectPayload) : HandlerStep :=
  match p with
  | RectPayload.qrect r =>
    HandlerStep.acted (update_line_number_area contents (some (RectPayload.qrect r)))
  | RectPayload.qrectF r =>
    HandlerStep.acted (update_line_number_area contents (some (RectPayload.qrectF r)))
  | RectPayload.intPayload _ => HandlerStep.loggedUnexpected

/-! ## Runner: `MainWindow.run_code` -/

/-- Outcome of the external interpreter invocation
`subprocess.check_output(['python', '-c', code], stderr=STDOUT, text=True)`:
either the process ran to completion with an exit code and its combined
stdout+stderr text, or the process could not be started at all. -/
inductive ProcOutcome where
  | completed (returncode : Nat) (output : List Char)
  | spawnFailure

/-- Exceptions `check_output` can raise. -/
inductive SubprocessError where
  | calledProcessError (returncode : Nat) (output : List Char)
  | osError
deriving DecidableEq

/-- `subprocess.check_output` with `stderr=STDOUT`: return the captured text on
exit code zero, raise `CalledProcessError` carrying the same captured text on a
non-zero exit, raise `OSError` when the interpreter cannot be spawned. -/
def check_output : ProcOutcome → Except SubprocessError (List Char)
  | ProcOutcome.completed rc out =>
    if rc = 0 then Except.ok out else Except.error (SubprocessError.calledProcessError rc out)
  | ProcOutcome.spawnFailure => Except.error SubprocessError.osError

/-- `MainWindow.run_code`: call `check_output`; on `CalledProcessError e` use
`e.output` as the text; the resulting text is what the output window displays.
Any other exception is not caught. -/
def run_code (p : ProcOutcome) : Except SubprocessError (List Char) :=
  match check_output p with
  | Except.ok out => Except.ok out
  | Except.error (SubprocessError.calledProcessError _ out) => Except.ok out
  | Except.error SubprocessError.osError => Except.error SubprocessError.osError

/-! ## File I/O: the control flow of `MainWindow.open_file` -/

/-- The two encodings named in `open_file`. -/
inductive Encoding where
  | utf8
  | latin1
deriving DecidableEq

/-- Outcome of one `open(file_name, 'r', encoding=...) ... file.read()`
attempt: decoded text (codepoints), a `UnicodeDecodeError`, or any other
exception (`OSError` and friends). -/
inductive ReadOutcome where
  | ok (text : List Nat)
  | decodeError
  | otherError
deriving DecidableEq

/-- State after `open_file` returns normally: the editor buffer contents and
whether the `except Exception` branch printed its error message. -/
structure OpenResult where
  buffer : List Nat
  reported : Bool
deriving DecidableEq

/-- `MainWindow.open_file` after a path was chosen, parameterised by the
outcome of each read attempt: try UTF-8 and set the buffer on success; on
`UnicodeDecodeError` retry once with Latin-1, whose own failure of any kind is
caught, printed, and leaves the buffer untouched; any non-decode failure of
the first attempt is caught by no handler and propagates (`Except.error`). -/
def open_file (read : Encoding → ReadOutcome) (buf : List Nat) : Except Unit OpenResult :=
  match read Encoding.utf8 with
  | ReadOutcome.ok s => Except.ok ⟨s, false⟩
  | ReadOutcome.decodeError =>
    match read Encoding.latin1 with
    | ReadOutcome.ok s => Except.ok ⟨s, false⟩
    | ReadOutcome.decodeError => Except.ok ⟨buf, true⟩
    | ReadOutcome.otherError => Except.ok ⟨buf, true⟩
  | ReadOutcome.otherError => Except.error ()

/-! ## Byte-level text codecs

Python's codecs, as exercised by `open_file` (strict UTF-8 decode, total
Latin-1 decode) and by `save_file` (text-mode write under the platform
preferred encoding, since `open(file_name, 'w')` passes no encoding).
Codepoints and bytes are both `Nat`. -/

/-- Whether `n` is a Unicode scalar value, i.e. encodable by UTF-8 (Python
`str` may additionally hold lone surrogates, which UTF-8 rejects). -/
def isScalarB (n : Nat) : Bool :=
  decide (n < 1114112 ∧ ¬(55296 ≤ n ∧ n ≤ 57343))

/-- UTF-8 encoding of one scalar value. -/
def utf8EncodeChar (c : Nat) : List Nat :=
  if c < 128 then [c]
  else if c < 2048 then [192 + c / 64, 128 + c % 64]
  else if c < 65536 then [224 + c / 4096, 128 + c / 64 % 64, 128 + c % 64]
  else [240 + c / 262144, 128 + c / 4096 % 64, 128 + c / 64 % 64, 128 + c % 64]

/-- Strict UTF-8 encoding of a codepoint sequence; `none` models Python's
`UnicodeEncodeError` (a surrogate in the string). -/
def utf8Encode (cs : List Nat) : Option (List Nat) :=
  if cs.all isScalarB then some (cs.flatMap utf8EncodeChar) else none

/-- Strict UTF-8 decoding of the first scalar of a byte sequence, as CPython
performs it: continuation bytes in `[128, 192)`, overlong forms, surrogates
and values above `0x10FFFF` rejected.  Returns the scalar and the number of
bytes consumed. -/
def utf8DecodeOne : List Nat → Option (Nat × Nat)
  | [] => none
  | b :: rest =>
    if b < 128 then some (b, 1)
    else if 194 ≤ b ∧ b < 224 then
      match rest with
      | b1 :: _ =>
        if 128 ≤ b1 ∧ b1 < 192 then some ((b - 192) * 64 + (b1 - 128), 2) else none
      | [] => none
    else if 224 ≤ b ∧ b < 240 then
      match rest with
      | b1 :: b2 :: _ =>
        if 128 ≤ b1 ∧ b1 < 192 ∧ 128 ≤ b2 ∧ b2 < 192 ∧
            2048 ≤ (b - 224) * 4096 + (b1 - 128) * 64 + (b2 - 128) ∧
            ¬(55296 ≤ (b - 224) * 4096 + (b1 - 128) * 64 + (b2 - 128) ∧
              (b - 224) * 4096 + (b1 - 128) * 64 + (b2 - 128) ≤ 57343) then
          some ((b - 224) * 4096 + (b1 - 128) * 64 + (b2 - 128), 3)
        else none
      | _ => none
    else if 240 ≤ b ∧ b < 245 then
      match rest with
      | b1 :: b2 :: b3 :: _ =>
        if 128 ≤ b1 ∧ b1 < 192 ∧ 128 ≤ b2 ∧ b2 < 192 ∧ 128 ≤ b3 ∧ b3 < 192 ∧
            65536 ≤ (b - 240) * 262144 + (b1 - 128) * 4096 + (b2 - 128) * 64 + (b3 - 128) ∧
            (b - 240) * 262144 + (b1 - 128) * 4096 + (b2 - 128) * 64 + (b3 - 128) < 1114112 then
          some ((b - 240) * 262144 + (b1 - 128) * 4096 + (b2 - 128) * 64 + (b3 - 128), 4)
        else none
      | _ => none
    else none

/-- Decode loop: one scalar per step.  Every successful `utf8DecodeOne`
consumes at least one byte, so `fuel = length of the input` always suffices
and the fuel-exhaustion branch is unreachable. -/
def utf8DecodeLoop : Nat → List Nat → Option (List Nat)
  | _, [] => some []
  | 0, _ :: _ => none
  | fuel + 1, b :: rest =>
    match utf8DecodeOne (b :: rest) with
    | none => none
    | some (v, n) => (utf8DecodeLoop fuel ((b :: rest).drop n)).map (fun l => v :: l)

/-- Strict UTF-8 decoding of a whole byte sequence; `none` models
`UnicodeDecodeError`. -/
def utf8Decode (bs : List Nat) : Option (List Nat) := utf8DecodeLoop bs.length bs

/-- Latin-1 encoding: each codepoint below 256 becomes the same byte; any
other codepoint raises `UnicodeEncodeError` (`none`). -/
def latin1Encode (cs : List Nat) : Option (List Nat) :=
  if cs.all (fun c => decide (c < 256)) then some cs else none

/-- Latin-1 decoding: each byte maps to the codepoint of the same value, so
decoding succeeds for every byte sequence (all bytes are below 256). -/
def latin1Decode (bs : List Nat) : Option (List Nat) :=
  if bs.all (fun b => decide (b < 256)) then some bs else none

/-- Universal-newline translation performed by text-mode `open(..., 'r')`:
`\r\n` and lone `\r` both become `\n` (codepoints 13 and 10). -/
def universalNewlines : List Nat → List Nat
  | [] => []
  | [c] => if c = 13 then [10] else [c]
  | c :: c2 :: rest =>
    if c = 13 then
      if c2 = 10 then 10 :: universalNewlines rest
      else 10 :: universalNewlines (c2 :: rest)
    else c :: universalNewlines (c2 :: rest)

/-- Encoder selected by an encoding name. -/
def encodeWith : Encoding → List Nat → Option (List Nat)
  | Encoding.utf8 => utf8Encode
  | Encoding.latin1 => latin1Encode

/-- Decoder selected by an encoding name. -/
def decodeWith : Encoding → List Nat → Option (List Nat)
  | Encoding.utf8 => utf8Decode
  | Encoding.latin1 => latin1Decode

/-- `MainWindow.save_file` after a path was chosen: `open(file_name, 'w')`
passes no encoding, so the buffer is encoded under the platform preferred
encoding (parameterised here); `file.write` writes the whole buffer.  On a
POSIX platform text-mode writing performs no newline translation.  `none`
models a `UnicodeEncodeError` propagating. -/
def save_file (preferred : Encoding) (buf : List Nat) : Option (List Nat) :=
  encodeWith preferred buf

/-- Outcome of one read attempt of `open_file` on a readable file holding
`bytes`: text mode decodes under the attempt's encoding and applies
universal-newline translation; a decode failure is `UnicodeDecodeError`. -/
def readBytesOutcome (bytes : List Nat) (e : Encoding) : ReadOutcome :=
  match decodeWith e bytes with
  | some s => ReadOutcome.ok (universalNewlines s)
  | none => ReadOutcome.decodeError

/-- `MainWindow.open_file` on a readable file holding `bytes`. -/
def open_file_bytes (bytes : List Nat) (buf : List Nat) : Except Unit OpenResult :=
  open_file (readBytesOutcome bytes) buf

/-! ## Claim C1 -/

/-- C1 counterexample: a failure of the primary (UTF-8) attempt that is not a
decode error — e.g. `PermissionError` from `open` — matches no `except` clause
of `open_file` and propagates as an unhandled exception, contrary to the
claim that any non-decode failure is reported and never propagates. -/
theorem open_file_primary_error_propagates :
    open_file (fun _ => ReadOutcome.otherError) [] = Except.error () := rfl

/-- C1 amended: `open_file` first attempts UTF-8; on a decode failure it
retries exactly once under Latin-1, and any failure of that fallback attempt
is caught and reported with the buffer left untouched; but a non-decode
failure of the primary attempt propagates unhandled. -/
theorem open_file_fallback_behavior :
    ∀ (read : Encoding → ReadOutcome) (buf : List Nat),
      (∀ s, read Encoding.utf8 = ReadOutcome.ok s →
        open_file read buf = Except.ok ⟨s, false⟩) ∧
      (read Encoding.utf8 = ReadOutcome.decodeError →
        (∀ s, read Encoding.latin1 = ReadOutcome.ok s →
          open_file read buf = Except.ok ⟨s, false⟩) ∧
        ((read Encoding.latin1 = ReadOutcome.decodeError ∨
          read Encoding.latin1 = ReadOutcome.otherError) →
          open_file read buf = Except.ok ⟨buf, true⟩)) ∧
      (read Encoding.utf8 = ReadOutcome.otherError →
        open_file read buf = Except.error ()) := by
  intro read buf
  refine ⟨fun s h => by simp [open_file, h], fun h1 => ⟨fun s h2 => by simp [open_file, h1, h2],
    fun h2 => by rcases h2 with h2 | h2 <;> simp [open_file, h1, h2]⟩,
    fun h => by simp [open_file, h]⟩

/-- C1 witness: a run where the UTF-8 attempt hits a decode error and the
Latin-1 attempt fails with a non-decode error is caught and reported, with the
buffer untouched. -/
theorem open_file_fallback_behavior_witness :
    open_file (fun e => match e with
      | Encoding.utf8 => ReadOutcome.decodeError
      | Encoding.latin1 => ReadOutcome.otherError) [7] = Except.ok ⟨[7], true⟩ :=
  ((open_file_fallback_behavior _ [7]).2.1 rfl).2 (Or.inr rfl)

/-! ## Claim C5 -/

/-- C5: for every completed interpreter run, zero or non-zero exit alike, the
text the output window displays is exactly the captured combined
stdout+stderr of the process — failure is surfaced as text, with no
distinguished error state.  (Whatever the interpreter put in that output —
`hi` for `print("hi")`, a traceback for a raising buffer — is therefore shown
verbatim.) -/
theorem run_code_displays_captured :
    ∀ (rc : Nat) (out : List Char), run_code (ProcOutcome.completed rc out) = Except.ok out := by
  intro rc out
  by_cases h : rc = 0 <;> simp [run_code, check_output, h]

/-! ## Claim C6 -/

/-- C6: none of the three error conditions of the spec's taxonomy kills the
process: a decode failure on open is caught whatever the fallback attempt then
does; a completed interpreter run is handled for every exit code; and an
unexpected payload shape in the redraw slot is logged and skipped, never
thrown. -/
theorem taxonomy_errors_nonfatal :
    ∀ (fb : ReadOutcome) (buf : List Nat) (rc : Nat) (out : List Char)
      (cr : QtRect) (n : Nat),
      (open_file (fun e => match e with
        | Encoding.utf8 => ReadOutcome.decodeError
        | Encoding.latin1 => fb) buf).isOk = true ∧
      (run_code (ProcOutcome.completed rc out)).isOk = true ∧
      handle_update_request cr (RectPayload.intPayload n) = HandlerStep.loggedUnexpected := by
  intro fb buf rc out cr n
  refine ⟨?_, ?_, rfl⟩
  · cases fb <;> simp [open_file, Except.isOk, Except.toBool]
  · by_cases h : rc = 0 <;> simp [run_code, check_output, h, Except.isOk, Except.toBool]

/-! ## Claim C7 -/

/-- C7: the gutter paint itself is stateless and correct — walking the blocks
from the first visible one draws `blockNumber + 1` beside each — but the
`blockCountChanged` connection is a dead path: PyQt delivers the new block
count (an `int`) as the slot's `rect` argument, both `isinstance` checks fail,
and the slot returns without requesting any gutter update.  Evaluated here at
the failing input `2` (pressing Enter on a one-line document). -/
theorem blockCountChanged_payload_noop :
    update_line_number_area ⟨0, 0, 800, 600⟩ (some (RectPayload.intPayload 2)) =
      GutterAction.noop ∧
    lineNumberPaintEvent
      [⟨0, 0, 800, 15⟩, ⟨0, 15, 800, 15⟩, ⟨0, 30, 800, 15⟩] 0 ⟨0, 0, 40, 600⟩ =
      [(0, 1), (1, 2), (2, 3)] := by
  exact ⟨rfl, by decide⟩

/-! ## Scanning lemmas -/

/-- Greedy repetition never counts more characters than the list holds. -/
theorem countWhile_le (p : Char → Bool) : ∀ l : List Char, countWhile p l ≤ l.length := by
  intro l
  induction l with
  | nil => simp [countWhile]
  | cons c rest ih =>
    by_cases h : p c
    · simp [countWhile, h]
      omega
    · simp [countWhile, h]

/-- A found character index lies inside the list. -/
theorem nextIndexOf_lt (c : Char) : ∀ (l : List Char) (j : Nat),
    nextIndexOf c l = some j → j < l.length := by
  intro l
  induction l with
  | nil => intro j h; simp [nextIndexOf] at h
  | cons a rest ih =>
    intro j h
    simp only [List.length_cons]
    by_cases ha : a == c
    · simp [nextIndexOf, ha] at h
      omega
    · simp [nextIndexOf, ha] at h
      obtain ⟨j2, hj2, rfl⟩ := h
      have := ih j2 hj2
      omega

/-- The backtracking search for the fractional part never exceeds the greedy
digit count. -/
theorem bestOptExt_le (t : List Char) (b : Nat) : ∀ (e e2 : Nat),
    bestOptExt t b e = some e2 → e2 ≤ e := by
  intro e
  induction e with
  | zero => intro e2 h; simp [bestOptExt] at h; omega
  | succ k ih =>
    intro e2 h
    by_cases hb : boundaryAt t (b + k + 1) = true
    · simp [bestOptExt, hb] at h; omega
    · simp [bestOptExt, hb] at h
      have := ih e2 h
      omega

/-- A keyword rule only matches a non-empty in-bounds range. -/
theorem literalMatchAt_bounds (kw : List Char) (hk : 1 ≤ kw.length) :
    ∀ (t : List Char) (i len : Nat),
      literalMatchAt kw t i = some len → 1 ≤ len ∧ i + len ≤ t.length := by
  intro t i len h
  unfold literalMatchAt at h
  split at h
  · rename_i hc
    injection h with h
    have hlen := congrArg List.length hc
    simp [List.length_take, List.length_drop] at hlen
    omega
  · exact absurd h (by simp)

/-- The comment rule only matches a non-empty in-bounds range. -/
theorem commentMatchAt_bounds :
    ∀ (t : List Char) (i len : Nat),
      commentMatchAt t i = some len → 1 ≤ len ∧ i + len ≤ t.length := by
  intro t i len h
  unfold commentMatchAt at h
  split at h
  · rename_i hc
    injection h with h
    have hi : i < t.length := by
      rcases List.get?_eq_some.mp hc with ⟨hlt, _⟩
      exact hlt
    omega
  · exact absurd h (by simp)

/-- A string rule only matches a non-empty in-bounds range. -/
theorem quoteStringMatchAt_bounds (q : Char) :
    ∀ (t : List Char) (i len : Nat),
      quoteStringMatchAt q t i = some len → 1 ≤ len ∧ i + len ≤ t.length := by
  intro t i len h
  unfold quoteStringMatchAt at h
  split at h
  · rename_i hc
    rw [Option.map_eq_some'] at h
    obtain ⟨j, hj, rfl⟩ := h
    have hjl := nextIndexOf_lt q _ j hj
    have hi : i < t.length := by
      rcases List.get?_eq_some.mp hc with ⟨hlt, _⟩
      exact hlt
    simp [List.length_drop] at hjl
    omega
  · exact absurd h (by simp)

/-- The number rule only matches a non-empty in-bounds range. -/
theorem numberMatchAt_bounds :
    ∀ (t : List Char) (i len : Nat),
      numberMatchAt t i = some len → 1 ≤ len ∧ i + len ≤ t.length := by
  intro t i len h
  unfold numberMatchAt at h
  simp only [] at h
  have hd := countWhile_le Char.isDigit (t.drop i)
  simp [List.length_drop] at hd
  split at h
  · rename_i hcond
    split at h
    · rename_i hdot
      have hdotlt : i + countWhile Char.isDigit (t.drop i) < t.length := by
        rcases List.get?_eq_some.mp hdot with ⟨hlt, _⟩
        exact hlt
      have he := countWhile_le Char.isDigit (t.drop (i + countWhile Char.isDigit (t.drop i) + 1))
      simp [List.length_drop] at he
      split at h
      · rename_i e2 hbest
        have := bestOptExt_le _ _ _ _ hbest
        injection h with h
        omega
      · split at h
        · injection h with h
          omega
        · exact absurd h (by simp)
    · split at h
      · injection h with h
        omega
      · exact absurd h (by simp)
  · exact absurd h (by simp)

/-- A def/class-name rule only matches a non-empty in-bounds range. -/
theorem kwNameMatchAt_bounds (kw : List Char) (hk : 1 ≤ kw.length) :
    ∀ (t : List Char) (i len : Nat),
      kwNameMatchAt kw t i = some len → 1 ≤ len ∧ i + len ≤ t.length := by
  intro t i len h
  unfold kwNameMatchAt at h
  simp only [] at h
  split at h
  · rename_i hcond
    have hkwlen := congrArg List.length hcond.2
    simp [List.length_take, List.length_drop] at hkwlen
    have hs := countWhile_le Char.isWhitespace (t.drop (i + kw.length))
    simp [List.length_drop] at hs
    have hw := countWhile_le isWordChar
      (t.drop (i + kw.length + countWhile Char.isWhitespace (t.drop (i + kw.length))))
    simp [List.length_drop] at hw
    split at h
    · rename_i hsw
      injection h with h
      omega
    · exact absurd h (by simp)
  · exact absurd h (by simp)

/-- Whatever `findFromAux` finds is at or after the start and is a match. -/
theorem findFromAux_sound (m : List Char → Nat → Option Nat) (t : List Char) :
    ∀ (fuel s i len : Nat),
      findFromAux m t fuel s = some (i, len) → s ≤ i ∧ m t i = some len := by
  intro fuel
  induction fuel with
  | zero => intro s i len h; simp [findFromAux] at h
  | succ f ih =>
    intro s i len h
    unfold findFromAux at h
    split at h
    · rename_i l hm
      injection h with h
      injection h with h1 h2
      subst h1; subst h2
      exact ⟨le_refl _, hm⟩
    · rcases ih (s + 1) i len h with ⟨h1, h2⟩
      exact ⟨by omega, h2⟩

/-- Whatever `findFrom` finds is at or after the start and is a match. -/
theorem findFrom_sound (m : List Char → Nat → Option Nat) (t : List Char)
    (s i len : Nat) (h : findFrom m t s = some (i, len)) :
    s ≤ i ∧ m t i = some len :=
  findFromAux_sound m t _ s i len h

/-- When `m` matches at `i` and nowhere in `[s, i)`, the bounded search finds
exactly `(i, len)` provided enough fuel. -/
theorem findFromAux_eq (m : List Char → Nat → Option Nat) (t : List Char)
    (i len : Nat) (hm : m t i = some len) :
    ∀ (fuel s : Nat), s ≤ i → i < s + fuel →
      (∀ j, s ≤ j → j < i → m t j = none) →
      findFromAux m t fuel s = some (i, len) := by
  intro fuel
  induction fuel with
  | zero => intro s h1 h2 _; omega
  | succ f ih =>
    intro s h1 h2 hnone
    rcases Nat.lt_or_ge s i with hlt | hge
    · have hs : m t s = none := hnone s (le_refl _) hlt
      unfold findFromAux
      rw [hs]
      exact ih (s + 1) (by omega) (by omega) (fun j hj1 hj2 => hnone j (by omega) hj2)
    · have : s = i := by omega
      subst this
      unfold findFromAux
      rw [hm]

/-- `indexIn` semantics: the leftmost match at or after `s`. -/
theorem findFrom_eq (m : List Char → Nat → Option Nat) (t : List Char)
    (s i len : Nat) (hm : m t i = some len) (hi : i ≤ t.length) (hs : s ≤ i)
    (hnone : ∀ j, s ≤ j → j < i → m t j = none) :
    findFrom m t s = some (i, len) :=
  findFromAux_eq m t i len hm _ s hs (by omega) hnone

/-- Past the end of the line the search finds nothing. -/
theorem findFrom_past_end (m : List Char → Nat → Option Nat) (t : List Char)
    (s : Nat) (h : t.length + 1 ≤ s) : findFrom m t s = none := by
  unfold findFrom
  have : t.length + 1 - s = 0 := by omega
  rw [this]
  rfl

/-- Every span in the scanning loop's output is a real match of the rule. -/
theorem scanAux_mem_sound (m : List Char → Nat → Option Nat) (t : List Char) :
    ∀ (fuel s i len : Nat), (i, len) ∈ scanAux m t fuel s → m t i = some len := by
  intro fuel
  induction fuel with
  | zero => intro s i len h; simp [scanAux] at h
  | succ f ih =>
    intro s i len h
    unfold scanAux at h
    split at h
    · simp at h
    · rename_i j l hfind
      rcases List.mem_cons.mp h with h1 | h1
      · injection h1 with h1 h2
        subst h1; subst h2
        exact (findFrom_sound m t s i len hfind).2
      · exact ih (j + l) i len h1

/-- Every span `highlightBlock` produces for a rule is a real match. -/
theorem scan_mem_sound (m : List Char → Nat → Option Nat) (t : List Char)
    (i len : Nat) (h : (i, len) ∈ scan m t) : m t i = some len :=
  scanAux_mem_sound m t _ 0 i len h

/-- For a rule whose matches are non-empty and in-bounds, the scanning loop is
insensitive to any fuel at least `t.length + 1 - s`: the loop reaches the
no-further-match state within that many iterations. -/
theorem scanAux_congr (m : List Char → Nat → Option Nat)
    (hb : ∀ t i len, m t i = some len → 1 ≤ len ∧ i + len ≤ t.length)
    (t : List Char) :
    ∀ (f1 f2 s : Nat), t.length + 1 - s ≤ f1 → t.length + 1 - s ≤ f2 →
      scanAux m t f1 s = scanAux m t f2 s := by
  intro f1
  induction f1 with
  | zero =>
    intro f2 s h1 h2
    have hs : t.length + 1 ≤ s := by omega
    cases f2 with
    | zero => rfl
    | succ f =>
      show scanAux m t 0 s = scanAux m t (f + 1) s
      unfold scanAux
      rw [findFrom_past_end m t s hs]
  | succ f ih =>
    intro f2 s h1 h2
    cases f2 with
    | zero =>
      have hs : t.length + 1 ≤ s := by omega
      show scanAux m t (f + 1) s = scanAux m t 0 s
      unfold scanAux
      rw [findFrom_past_end m t s hs]
    | succ f2 =>
      show scanAux m t (f + 1) s = scanAux m t (f2 + 1) s
      unfold scanAux
      cases hfind : findFrom m t s with
      | none => rfl
      | some p =>
        obtain ⟨i, len⟩ := p
        rcases findFrom_sound m t s i len hfind with ⟨hsi, hm⟩
        rcases hb t i len hm with ⟨hlen, hbound⟩
        have := ih f2 (i + len) (by omega) (by omega)
        show (i, len) :: scanAux m t f (i + len) = (i, len) :: scanAux m t f2 (i + len)
        rw [this]

/-! ## Claim C9 -/

/-- C9: every registered rule matches only non-empty in-bounds ranges, and
therefore the `while index >= 0` loop of `highlightBlock` terminates: the scan
reaches the no-further-match state within `t.length + 1 - s` iterations, extra
fuel never changing the result. -/
theorem highlight_rules_scan_terminates :
    ∀ r ∈ highlighting_rules,
      (∀ (t : List Char) (i len : Nat),
        r.matchAt t i = some len → 1 ≤ len ∧ i + len ≤ t.length) ∧
      (∀ (t : List Char) (s fuel : Nat), t.length + 1 - s ≤ fuel →
        scanAux r.matchAt t fuel s = scanAux r.matchAt t (t.length + 1 - s) s) := by
  intro r hr
  have hb : ∀ (t : List Char) (i len : Nat),
      r.matchAt t i = some len → 1 ≤ len ∧ i + len ≤ t.length := by
    simp only [highlighting_rules] at hr
    fin_cases hr <;>
      first
        | exact literalMatchAt_bounds _ (by decide)
        | exact commentMatchAt_bounds
        | exact quoteStringMatchAt_bounds _
        | exact numberMatchAt_bounds
        | exact kwNameMatchAt_bounds _ (by decide)
  exact ⟨hb, fun t s fuel h =>
    scanAux_congr r.matchAt hb t fuel (t.length + 1 - s) s h (le_refl _)⟩

/-- C9 witness: the `def` keyword rule on the line `def defx`, with surplus
fuel `42`, equals the scan with the canonical fuel bound. -/
theorem highlight_rules_scan_terminates_witness :
    (1 ≤ 3 ∧ 0 + 3 ≤ (strL "def defx").length) ∧
    scanAux (literalMatchAt (strL "def")) (strL "def defx") 42 0 =
      scanAux (literalMatchAt (strL "def")) (strL "def defx")
        ((strL "def defx").length + 1 - 0) 0 := by
  have H := highlight_rules_scan_terminates
    ⟨literalMatchAt (strL "def"), HColor.blue⟩ (by simp [highlighting_rules])
  exact ⟨H.1 (strL "def defx") 0 3 (by decide), H.2 (strL "def defx") 0 42 (by decide)⟩

/-! ## Claim C2 -/

/-- C2 counterexample: the keyword patterns carry no word boundaries, so on
the line `define` the `def` rule produces the span `(0, 3)` even though that
occurrence sits inside a longer identifier — the span does not cover the
keyword as a whole token as the claim requires. -/
theorem keyword_span_inside_identifier :
    (0, 3) ∈ scan (literalMatchAt (strL "def")) (strL "define") ∧
    ¬ specWholeTokenSpan (strL "define") (0, 3) := by
  constructor
  · decide
  · unfold specWholeTokenSpan
    decide

/-- C2 amended: for every keyword of the fixed set and every line, each span
the keyword's rule produces has exactly the keyword's length and exactly
bounds an occurrence of the keyword as a literal substring (possibly inside a
longer identifier, since the patterns carry no word boundaries). -/
theorem keyword_spans_exact_matches :
    ∀ kw ∈ pythonKeywords, ∀ (t : List Char) (sp : Nat × Nat),
      sp ∈ scan (literalMatchAt (strL kw)) t →
      sp.2 = (strL kw).length ∧ (t.drop sp.1).take sp.2 = strL kw := by
  intro kw _ t sp hsp
  obtain ⟨i, len⟩ := sp
  have h := scan_mem_sound (literalMatchAt (strL kw)) t i len hsp
  unfold literalMatchAt at h
  split at h
  · rename_i hc
    injection h with h
    subst h
    exact ⟨rfl, hc⟩
  · exact absurd h (by simp)

/-- C2 witness: on the line `if x: return y` the `return` rule's span `(6, 6)`
has the keyword's length and exactly bounds the substring `return`. -/
theorem keyword_spans_exact_matches_witness :
    ((6, 6) : Nat × Nat).2 = (strL "return").length ∧
    ((strL "if x: return y").drop (6, 6).1).take (6, 6).2 = strL "return" :=
  keyword_spans_exact_matches "return" (by decide) (strL "if x: return y") (6, 6) (by decide)

/-! ## Claim C8 -/

/-- When `c` is absent from `l`, its first occurrence in `l ++ c :: r` sits
exactly at index `l.length`. -/
theorem nextIndexOf_append_absent (c : Char) : ∀ (l r : List Char), c ∉ l →
    nextIndexOf c (l ++ c :: r) = some l.length := by
  intro l
  induction l with
  | nil => intro r _; simp [nextIndexOf]
  | cons a l2 ih =>
    intro r h
    simp only [List.mem_cons, not_or] at h
    have ha : (a == c) = false := by
      simp only [beq_eq_false_iff_ne, ne_eq]
      intro hac
      exact h.1 hac.symm
    simp [nextIndexOf, ha, ih r h.2]

/-- The first match found from position 0 appears among the scanned spans. -/
theorem mem_scan_of_first (m : List Char → Nat → Option Nat) (t : List Char)
    (i len : Nat) (h : findFrom m t 0 = some (i, len)) : (i, len) ∈ scan m t := by
  unfold scan
  show (i, len) ∈ scanAux m t (t.length + 1) 0
  unfold scanAux
  rw [h]
  show (i, len) ∈ (i, len) :: scanAux m t t.length (i + len)
  exact List.mem_cons_self _ _

/-- A span scanned for a rule of the table appears, tagged with that rule's
color, among the produced spans. -/
theorem mem_spansOfRules (t : List Char) (sp : Nat × Nat) :
    ∀ (rs : List HighlightRule) (r : HighlightRule), r ∈ rs → sp ∈ scan r.matchAt t →
      (sp.1, sp.2, r.color) ∈ spansOfRules rs t := by
  intro rs
  induction rs with
  | nil => intro r hr _; cases hr
  | cons a rs2 ih =>
    intro r hr hsp
    unfold spansOfRules
    rw [List.foldr_cons]
    rcases List.mem_cons.mp hr with h | h
    · subst h
      exact List.mem_append_left _ (List.mem_map_of_mem _ hsp)
    · exact List.mem_append_right _ (ih r h hsp)

/-- C8 counterexample: on the line `"a#b" # c` — a string literal followed
later by a comment marker — the comment rule's span starts at the `#` inside
the string, so the produced string span `(0, 5)` and comment span `(2, 7)`
overlap, contrary to the claim. -/
theorem string_comment_spans_overlap :
    (0, 5, HColor.red) ∈ spansProduced (strL "\"a#b\" # c") ∧
    (2, 7, HColor.green) ∈ spansProduced (strL "\"a#b\" # c") ∧
    ¬ spansDisjoint (0, 5) (2, 7) := by
  refine ⟨by decide, by decide, ?_⟩
  unfold spansDisjoint
  decide

/-- C8 amended: for a line made of a double-quoted string literal whose
content contains no quote and no hash, then any hash-free text, then the first
`#` of the line and the remainder: the Highlighter produces the string span
exactly covering the literal (string rule, red) and the comment span exactly
covering the text from the `#` to the end of the line (comment rule, green),
and these two spans do not overlap. -/
theorem string_then_comment_spans :
    ∀ (inner mid rest : List Char),
      dquoteChar ∉ inner → hashChar ∉ inner → hashChar ∉ mid →
      ((0 : Nat), inner.length + 2, HColor.red) ∈
        spansProduced (dquoteChar :: (inner ++ (dquoteChar :: (mid ++ (hashChar :: rest))))) ∧
      (inner.length + 2 + mid.length, rest.length + 1, HColor.green) ∈
        spansProduced (dquoteChar :: (inner ++ (dquoteChar :: (mid ++ (hashChar :: rest))))) ∧
      spansDisjoint (0, inner.length + 2)
        (inner.length + 2 + mid.length, rest.length + 1) := by
  intro inner mid rest h1 h2 h3
  set t := dquoteChar :: (inner ++ (dquoteChar :: (mid ++ (hashChar :: rest)))) with ht
  have hlen : t.length = inner.length + mid.length + rest.length + 3 := by
    simp [ht]
    omega
  have hms : quoteStringMatchAt dquoteChar t 0 = some (inner.length + 2) := by
    unfold quoteStringMatchAt
    have hget0 : t.get? 0 = some dquoteChar := rfl
    rw [if_pos hget0]
    have hdrop : t.drop 1 = inner ++ (dquoteChar :: (mid ++ (hashChar :: rest))) := rfl
    rw [hdrop, nextIndexOf_append_absent dquoteChar inner _ h1]
    rfl
  have hfs : findFrom (quoteStringMatchAt dquoteChar) t 0 = some (0, inner.length + 2) :=
    findFrom_eq _ t 0 0 _ hms (Nat.zero_le _) (Nat.le_refl 0)
      (fun j _ hj => absurd hj (Nat.not_lt_zero j))
  have hmemS : ((0 : Nat), inner.length + 2) ∈ scan (quoteStringMatchAt dquoteChar) t :=
    mem_scan_of_first _ t 0 _ hfs
  have hSrule : (⟨quoteStringMatchAt dquoteChar, HColor.red⟩ : HighlightRule) ∈
      highlighting_rules := by
    simp [highlighting_rules]
  have hspan1 := mem_spansOfRules t (0, inner.length + 2) highlighting_rules _ hSrule hmemS
  have hpre : t = (dquoteChar :: (inner ++ (dquoteChar :: mid))) ++ (hashChar :: rest) := by
    simp [ht]
  have hgetH : t.get? (inner.length + 2 + mid.length) = some hashChar := by
    have h0 : inner.length + 2 + mid.length -
        (dquoteChar :: (inner ++ (dquoteChar :: mid))).length = 0 := by
      simp
      omega
    rw [hpre, List.get?_append_right (by simp; omega), h0]
    rfl
  have hnoneBefore : ∀ j, 0 ≤ j → j < inner.length + 2 + mid.length →
      commentMatchAt t j = none := by
    intro j _ hj
    unfold commentMatchAt
    rw [if_neg]
    intro hget
    rw [hpre, List.get?_append (by simp; omega)] at hget
    have hmem := List.get?_mem hget
    simp only [List.mem_cons, List.mem_append] at hmem
    rcases hmem with h | h | h | h
    · exact absurd h (by decide)
    · exact h2 h
    · exact absurd h (by decide)
    · exact h3 h
  have hmc : commentMatchAt t (inner.length + 2 + mid.length) = some (rest.length + 1) := by
    unfold commentMatchAt
    rw [if_pos hgetH]
    congr 1
    omega
  have hfc : findFrom commentMatchAt t 0 =
      some (inner.length + 2 + mid.length, rest.length + 1) :=
    findFrom_eq _ t 0 _ _ hmc (by omega) (Nat.zero_le _)
      (fun j hj1 hj2 => hnoneBefore j hj1 hj2)
  have hmemC := mem_scan_of_first _ t _ _ hfc
  have hCrule : (⟨commentMatchAt, HColor.green⟩ : HighlightRule) ∈ highlighting_rules := by
    simp [highlighting_rules]
  have hspan2 := mem_spansOfRules t _ highlighting_rules _ hCrule hmemC
  refine ⟨hspan1, hspan2, ?_⟩
  unfold spansDisjoint
  left
  simp

/-- C8 witness: the spec's example line `"hi" # note` — string span `(0, 4)`
in red, comment span `(5, 6)` in green, disjoint. -/
theorem string_then_comment_spans_witness :
    ((0 : Nat), (strL "hi").length + 2, HColor.red) ∈
      spansProduced (dquoteChar ::
        (strL "hi" ++ (dquoteChar :: (strL " " ++ (hashChar :: strL " note"))))) ∧
    ((strL "hi").length + 2 + (strL " ").length, (strL " note").length + 1, HColor.green) ∈
      spansProduced (dquoteChar ::
        (strL "hi" ++ (dquoteChar :: (strL " " ++ (hashChar :: strL " note"))))) ∧
    spansDisjoint (0, (strL "hi").length + 2)
      ((strL "hi").length + 2 + (strL " ").length, (strL " note").length + 1) :=
  string_then_comment_spans (strL "hi") (strL " ") (strL " note")
    (by decide) (by decide) (by decide)

/-! ## Claim C3 -/

/-- Pointwise description of `setFormatAux`: position `j` is repainted exactly
when its absolute position `i + j` lies in `[s, e)`. -/
theorem setFormatAux_get? (c : HColor) (s e : Nat) :
    ∀ (fmt : List (Option HColor)) (i j : Nat),
      (setFormatAux c s e i fmt).get? j =
        (fmt.get? j).map (fun v => if s ≤ i + j ∧ i + j < e then some c else v) := by
  intro fmt
  induction fmt with
  | nil => intro i j; simp [setFormatAux]
  | cons v rest ih =>
    intro i j
    cases j with
    | zero => simp [setFormatAux]
    | succ k =>
      have h : i + 1 + k = i + (k + 1) := by omega
      simp only [setFormatAux, List.get?_cons_succ]
      rw [ih (i + 1) k, h]

/-- Pointwise description of `setFormat`: position `j` is repainted exactly
when it lies in `[s, s + len)`. -/
theorem setFormat_get? (s len : Nat) (c : HColor) (fmt : List (Option HColor)) (j : Nat) :
    (setFormat s len c fmt).get? j =
      (fmt.get? j).map (fun v => if s ≤ j ∧ j < s + len then some c else v) := by
  unfold setFormat
  rw [setFormatAux_get?]
  simp

/-- Pointwise description of painting one rule's spans: position `j` ends up
with the rule's color exactly when some span covers it, and keeps its previous
value otherwise. -/
theorem applySpans_get? (c : HColor) :
    ∀ (spans : List (Nat × Nat)) (fmt : List (Option HColor)) (j : Nat),
      (applySpans c spans fmt).get? j =
        (fmt.get? j).map (fun v => if coversPos spans j then some c else v) := by
  intro spans
  induction spans with
  | nil =>
    intro fmt j
    unfold applySpans coversPos
    simp
  | cons sp rest ih =>
    intro fmt j
    show (applySpans c rest (setFormat sp.1 sp.2 c fmt)).get? j = _
    rw [ih, setFormat_get?]
    cases hf : fmt.get? j with
    | none => simp
    | some v =>
      simp only [Option.map_some']
      have hcons : coversPos (sp :: rest) j =
          (decide (sp.1 ≤ j ∧ j < sp.1 + sp.2) || coversPos rest j) := by
        simp [coversPos, List.any_cons]
      rw [hcons]
      by_cases hb1 : coversPos rest j = true <;>
        by_cases hb2 : sp.1 ≤ j ∧ j < sp.1 + sp.2 <;>
          simp [hb1, hb2]

/-- Folding the rule table over the format array: the final value at `p`
follows the last-covering-rule recurrence. -/
theorem foldl_rules_get? (t : List Char) (p : Nat) :
    ∀ (rs : List HighlightRule) (fmt : List (Option HColor)) (a : Option HColor),
      fmt.get? p = some a →
      (rs.foldl (fun f r => applyRule r t f) fmt).get? p =
        some (rs.foldl
          (fun acc r => if coversPos (scan r.matchAt t) p then some r.color else acc) a) := by
  intro rs
  induction rs with
  | nil => intro fmt a h; simpa using h
  | cons r rs2 ih =>
    intro fmt a h
    show ((rs2.foldl (fun f r => applyRule r t f) (applyRule r t fmt)).get? p) = _
    have h2 : (applyRule r t fmt).get? p =
        some (if coversPos (scan r.matchAt t) p then some r.color else a) := by
      unfold applyRule
      rw [applySpans_get?, h]
      rfl
    rw [ih _ _ h2]
    rfl

/-- A replicated all-`none` format array reads `none` at every position in
range. -/
theorem replicate_get?_none : ∀ (n p : Nat), p < n →
    (List.replicate n (none : Option HColor)).get? p = some none := by
  intro n
  induction n with
  | zero => intro p h; omega
  | succ k ih =>
    intro p h
    cases p with
    | zero => rfl
    | succ q =>
      show (List.replicate k (none : Option HColor)).get? q = some none
      exact ih q (by omega)

/-- C3: on every line and every in-range position, the color `highlightBlock`
finally leaves on a character is exactly the color of the last rule in
registration order (keywords, then comment, then strings, then numbers, then
def/class names) whose matches cover that character — so on every overlap the
later-registered rule wins. -/
theorem highlight_last_rule_wins :
    ∀ (t : List Char) (p : Nat), p < t.length →
      (highlightBlock t).get? p = some (lastCoveringColor t p) := by
  intro t p hp
  unfold highlightBlock lastCoveringColor
  exact foldl_rules_get? t p highlighting_rules _ none (replicate_get?_none t.length p hp)

/-- C3 witness: on the line `def x` the keyword rule (blue) and the def-name
rule (cyan) both cover position 0; the later-registered def-name rule wins. -/
theorem highlight_last_rule_wins_witness :
    (highlightBlock (strL "def x")).get? 0 = some (lastCoveringColor (strL "def x") 0) ∧
    lastCoveringColor (strL "def x") 0 = some HColor.cyan ∧
    coversPos (scan (literalMatchAt (strL "def")) (strL "def x")) 0 = true := by
  refine ⟨highlight_last_rule_wins (strL "def x") 0 (by decide), by decide, by decide⟩

/-! ## UTF-8 round trip -/

/-- Every scalar encodes to at least one byte. -/
theorem utf8EncodeChar_length_pos (c : Nat) : 1 ≤ (utf8EncodeChar c).length := by
  unfold utf8EncodeChar
  split_ifs <;> simp

/-- Decoding the UTF-8 bytes of a scalar, with anything appended, recovers the
scalar and consumes exactly its encoding. -/
theorem utf8DecodeOne_encodeChar (c : Nat) (h : isScalarB c = true) (tail : List Nat) :
    utf8DecodeOne (utf8EncodeChar c ++ tail) = some (c, (utf8EncodeChar c).length) := by
  have hc : c < 1114112 ∧ ¬(55296 ≤ c ∧ c ≤ 57343) := of_decide_eq_true h
  obtain ⟨hc1, hc2⟩ := hc
  by_cases h1 : c < 128
  · have he : utf8EncodeChar c = [c] := by simp [utf8EncodeChar, h1]
    rw [he]
    simp [utf8DecodeOne, h1]
  · by_cases h2 : c < 2048
    · have he : utf8EncodeChar c = [192 + c / 64, 128 + c % 64] := by
        simp [utf8EncodeChar, h1, h2]
      have e1 : ¬(192 + c / 64 < 128) := by omega
      have e2 : 194 ≤ 192 + c / 64 ∧ 192 + c / 64 < 224 := by omega
      have e3 : 128 ≤ 128 + c % 64 ∧ 128 + c % 64 < 192 := by omega
      rw [he]
      simp [utf8DecodeOne, e1, e2, e3]
      omega
    · by_cases h3 : c < 65536
      · have he : utf8EncodeChar c = [224 + c / 4096, 128 + c / 64 % 64, 128 + c % 64] := by
          simp [utf8EncodeChar, h1, h2, h3]
        have e1 : ¬(224 + c / 4096 < 128) := by omega
        have e2 : ¬(194 ≤ 224 + c / 4096 ∧ 224 + c / 4096 < 224) := by omega
        have e3 : 224 ≤ 224 + c / 4096 ∧ 224 + c / 4096 < 240 := by omega
        rw [he]
        simp [utf8DecodeOne, e1, e2, e3]
        omega
      · have he : utf8EncodeChar c =
            [240 + c / 262144, 128 + c / 4096 % 64, 128 + c / 64 % 64, 128 + c % 64] := by
          simp [utf8EncodeChar, h1, h2, h3]
        have e1 : ¬(240 + c / 262144 < 128) := by omega
        have e2 : ¬(194 ≤ 240 + c / 262144 ∧ 240 + c / 262144 < 224) := by omega
        have e3 : ¬(224 ≤ 240 + c / 262144 ∧ 240 + c / 262144 < 240) := by omega
        have e4 : 240 ≤ 240 + c / 262144 ∧ 240 + c / 262144 < 245 := by omega
        rw [he]
        simp [utf8DecodeOne, e1, e2, e3, e4]
        omega

/-- One unfolding of the decode loop on a non-empty byte list. -/
theorem utf8DecodeLoop_cons (fuel : Nat) (b : Nat) (rest : List Nat) :
    utf8DecodeLoop (fuel + 1) (b :: rest) =
      match utf8DecodeOne (b :: rest) with
      | none => none
      | some (v, n) => (utf8DecodeLoop fuel ((b :: rest).drop n)).map (fun l => v :: l) := rfl

/-- The decode loop inverts the encoder given fuel at least the number of
scalars. -/
theorem utf8DecodeLoop_encode :
    ∀ (cs : List Nat) (fuel : Nat), cs.all isScalarB = true → cs.length ≤ fuel →
      utf8DecodeLoop fuel (cs.flatMap utf8EncodeChar) = some cs := by
  intro cs
  induction cs with
  | nil =>
    intro fuel _ _
    show utf8DecodeLoop fuel ([].flatMap utf8EncodeChar) = some []
    cases fuel <;> rfl
  | cons c cs2 ih =>
    intro fuel hall hlen
    simp only [List.all_cons, Bool.and_eq_true] at hall
    simp only [List.length_cons] at hlen
    obtain ⟨f, rfl⟩ : ∃ f, fuel = f + 1 := ⟨fuel - 1, by omega⟩
    have hflat : (c :: cs2).flatMap utf8EncodeChar =
        utf8EncodeChar c ++ cs2.flatMap utf8EncodeChar := by
      simp [List.flatMap_cons]
    have hone : utf8DecodeOne (utf8EncodeChar c ++ cs2.flatMap utf8EncodeChar) =
        some (c, (utf8EncodeChar c).length) := utf8DecodeOne_encodeChar c hall.1 _
    obtain ⟨b, bs, hb⟩ : ∃ b bs, utf8EncodeChar c = b :: bs := by
      unfold utf8EncodeChar
      split_ifs <;> exact ⟨_, _, rfl⟩
    rw [hflat, hb, List.cons_append]
    rw [hb, List.cons_append] at hone
    simp only [utf8DecodeLoop_cons, hone]
    rw [← List.cons_append, List.drop_left]
    rw [ih f hall.2 (by omega)]
    rfl

/-- Each scalar contributes at least one byte, so the default fuel of
`utf8Decode` suffices on encoder output. -/
theorem length_le_flatMap_encode (cs : List Nat) :
    cs.length ≤ (cs.flatMap utf8EncodeChar).length := by
  induction cs with
  | nil => simp
  | cons c cs2 ih =>
    have h1 := utf8EncodeChar_length_pos c
    simp only [List.flatMap_cons, List.length_append, List.length_cons]
    omega

/-- UTF-8 decoding inverts UTF-8 encoding on every scalar sequence. -/
theorem utf8Decode_encode (cs : List Nat) (h : cs.all isScalarB = true) :
    utf8Decode (cs.flatMap utf8EncodeChar) = some cs :=
  utf8DecodeLoop_encode cs _ h (length_le_flatMap_encode cs)

/-- Universal-newline translation is the identity on carriage-return-free
text. -/
theorem universalNewlines_eq_self : ∀ (l : List Nat), (∀ x ∈ l, x ≠ 13) →
    universalNewlines l = l := by
  intro l
  induction l with
  | nil => intro _; rfl
  | cons c rest ih =>
    intro h
    have hc : c ≠ 13 := h c (List.mem_cons_self c rest)
    cases rest with
    | nil => simp [universalNewlines, hc]
    | cons c2 rest2 =>
      simp [universalNewlines, hc, ih (fun x hx => h x (List.mem_cons_of_mem _ hx))]

/-! ## Claim C4 -/

/-- C4 counterexample: `open(file_name, 'w')` passes no encoding, so Save
writes under the platform preferred encoding, not a fixed one.  Under a
Latin-1 locale the UTF-8-encodable buffer with codepoints `[195, 169]`
(the two characters of `Ã©`) is saved as the bytes `195 169`, which Open then
successfully decodes as UTF-8 into the single codepoint `233` (`é`) — the
reopened text is not byte-identical to the saved buffer. -/
theorem save_open_roundtrip_fails_latin1_locale :
    ([195, 169].all isScalarB = true) ∧
    save_file Encoding.latin1 [195, 169] = some [195, 169] ∧
    open_file_bytes [195, 169] [] = Except.ok ⟨[233], false⟩ ∧
    ([233] : List Nat) ≠ [195, 169] := by
  refine ⟨by decide, by decide, rfl, by decide⟩

/-- C4 amended: when the platform preferred encoding is UTF-8, saving a
UTF-8-encodable, carriage-return-free buffer and opening the written bytes
again restores exactly the saved buffer (on POSIX, where text-mode writing
does not translate newlines). -/
theorem save_open_roundtrip_utf8 :
    ∀ (buf old : List Nat), buf.all isScalarB = true → (∀ x ∈ buf, x ≠ 13) →
      ∃ bytes, save_file Encoding.utf8 buf = some bytes ∧
        open_file_bytes bytes old = Except.ok ⟨buf, false⟩ := by
  intro buf old hs hcr
  refine ⟨buf.flatMap utf8EncodeChar, ?_, ?_⟩
  · simp [save_file, encodeWith, utf8Encode, hs]
  · have hdec : decodeWith Encoding.utf8 (buf.flatMap utf8EncodeChar) = some buf := by
      show utf8Decode (buf.flatMap utf8EncodeChar) = some buf
      exact utf8Decode_encode buf hs
    have hd : readBytesOutcome (buf.flatMap utf8EncodeChar) Encoding.utf8 =
        ReadOutcome.ok buf := by
      simp [readBytesOutcome, hdec, universalNewlines_eq_self buf hcr]
    simp [open_file_bytes, open_file, hd]

/-- C4 witness: the buffer `hi` (codepoints 104, 105) under a UTF-8 locale
round-trips through save and open. -/
theorem save_open_roundtrip_utf8_witness :
    ∃ bytes, save_file Encoding.utf8 [104, 105] = some bytes ∧
      open_file_bytes bytes [] = Except.ok ⟨[104, 105], false⟩ :=
  save_open_roundtrip_utf8 [104, 105] [] (by decide) (by decide)

/-! ## Claim C10 -/

/-- C10: Latin-1 decoding is total over byte sequences — every readable file's
bytes decode — so the fallback attempt of `open_file` never raises a decode
error, its `except Exception` branch is unreachable via a decode failure, and
any readable file whose bytes are invalid UTF-8 still loads into the buffer as
the Latin-1 text (after universal-newline translation). -/
theorem latin1_fallback_total :
    ∀ (bytes old : List Nat), bytes.all (fun b => decide (b < 256)) = true →
      latin1Decode bytes = some bytes ∧
      (utf8Decode bytes = none →
        open_file_bytes bytes old = Except.ok ⟨universalNewlines bytes, false⟩) := by
  intro bytes old hb
  constructor
  · simp [latin1Decode, hb]
  · intro hu
    have h1 : readBytesOutcome bytes Encoding.utf8 = ReadOutcome.decodeError := by
      simp [readBytesOutcome, decodeWith, hu]
    have h2 : readBytesOutcome bytes Encoding.latin1 =
        ReadOutcome.ok (universalNewlines bytes) := by
      simp [readBytesOutcome, decodeWith, latin1Decode, hb]
    simp [open_file_bytes, open_file, h1, h2]

/-- C10 witness: the byte `255` is invalid UTF-8, yet the file loads as the
Latin-1 codepoint `255` with no error reported. -/
theorem latin1_fallback_total_witness :
    latin1Decode [255] = some [255] ∧
    open_file_bytes [255] [1] = Except.ok ⟨universalNewlines [255], false⟩ := by
  have H := latin1_fallback_total [255] [1] (by decide)
  exact ⟨H.1, H.2 (by decide)⟩
